import Mathlib

/-!
Verification development for the final-image compositing pipeline of the
sharkroll-ai-imagegen repository.  The component under study is the canvas
utility module containing `getDominantColor` and `compositeFinalImage`.
JavaScript strings are modelled as lists of characters, JavaScript numbers
as exact rationals with explicit floors where the code calls `Math.floor`,
and the mutable 2-D canvas as an explicit state record threaded through the
three pipeline stages.
-/

/-- JavaScript strings, modelled as lists of characters. -/
abbrev JStr := List Char

/-- Character upper-casing on the ASCII range, mirroring the effect of
`String.prototype.toUpperCase` (used at line 151, `gameName.toUpperCase()`):
lower-case ASCII letters move down by 32 code points, everything else is
unchanged. -/
def upChar (c : Char) : Char :=
  if 'a' ≤ c ∧ c ≤ 'z' then Char.ofNat (c.toNat - 32) else c

/-- Upper-casing of a whole string. -/
def upStr (s : JStr) : JStr := s.map upChar

/-- Splitting on a single space, mirroring `String.prototype.split(' ')`
(line 151): the empty string yields one empty word, and a separator at
either end or doubled in the middle yields empty words. -/
def splitSp : JStr → List JStr
  | [] => [[]]
  | c :: cs =>
    let r := splitSp cs
    if c = ' ' then [] :: r else (c :: r.headI) :: r.tail

/-- Whitespace characters stripped by `String.prototype.trim` — the
ECMAScript WhiteSpace and LineTerminator classes: tab, LF, VT, FF, CR,
space, NBSP, the Unicode space separators, the line and paragraph
separators, and ZWNBSP. -/
def jsIsWs (c : Char) : Bool :=
  c = ' ' || c = '\t' || c = '\n' || c = '\r' || c = '\x0B' || c = '\x0C' ||
  c = '\u00A0' || c = '\u1680' || c = '\u2000' || c = '\u2001' || c = '\u2002' ||
  c = '\u2003' || c = '\u2004' || c = '\u2005' || c = '\u2006' || c = '\u2007' ||
  c = '\u2008' || c = '\u2009' || c = '\u200A' || c = '\u2028' || c = '\u2029' ||
  c = '\u202F' || c = '\u205F' || c = '\u3000' || c = '\uFEFF'

/-- Trimming whitespace from both ends of a string, mirroring
`String.prototype.trim` (line 183, `lines[i].trim()`). -/
def jsTrim (s : JStr) : JStr :=
  ((s.dropWhile jsIsWs).reverse.dropWhile jsIsWs).reverse

/-- Joining a list of strings with single spaces between them. -/
def interSp : List JStr → JStr
  | [] => []
  | [w] => w
  | w :: ws => w ++ ' ' :: interSp ws

/-- The greedy word-wrap loop of `compositeFinalImage` (lines 165-177).
`n` is the index of the next word in the original word list and `line` the
accumulated current line; the loop body builds `testLine = line + words[n]
+ ' '`, commits the current line when `testWidth > maxWidth && n > 0`, and
after the loop the final partial line is always committed.  The text
measurer `m` abstracts `ctx.measureText`. -/
def wrapGo (m : JStr → ℚ) (maxW : ℚ) : List JStr → ℕ → JStr → List JStr
  | [], _, line => [line]
  | w :: ws, n, line =>
    let testLine := line ++ w ++ [' ']
    if maxW < m testLine ∧ 0 < n then
      line :: wrapGo m maxW ws (n + 1) (w ++ [' '])
    else
      wrapGo m maxW ws (n + 1) testLine

/-- Word-wrapping of the game name (lines 151-177): upper-case the name,
split it on spaces, and wrap against `maxWidth = targetWidth * 0.9`
(line 162). -/
def wrapTitle (m : JStr → ℚ) (targetWidth : ℚ) (gameName : JStr) : List JStr :=
  wrapGo m (targetWidth * 0.9) (splitSp (upStr gameName)) 0 []

/-- Height of the sampled bottom band, `Math.floor(height * 0.2)`
(line 44 of `getDominantColor`). -/
def sampleHeight (height : ℕ) : ℕ := ⌊(height : ℚ) * 0.2⌋₊

/-- Pixel `i` of the sampled band in canvas coordinates: the band is read
with `getImageData(0, startY, width, sampleHeight)` where
`startY = height - sampleHeight` (lines 44-47), so band pixel `i` lies at
column `i % width` and row `startY + i / width` of the canvas.  The canvas
pixel grid is abstracted as `pix : column → row → (r, g, b)`. -/
def bandPixel (pix : ℕ → ℕ → ℕ × ℕ × ℕ) (width height i : ℕ) : ℕ × ℕ × ℕ :=
  pix (i % width) (height - sampleHeight height + i / width)

/-- Indices visited by the sampling loop `for (i = 0; i < count; i += 10)`
(line 53): exactly the multiples of 10 below `count`. -/
def sampledIdx (count : ℕ) : List ℕ :=
  (List.range count).filter (fun i => i % 10 = 0)

/-- The Theme Sampler `getDominantColor` (lines 42-68): per-channel sums
over the stride-10 sampled band pixels, divided by
`actualCount = count / 10` (line 61 — exact division, yielding a fraction
whenever `count` is not a multiple of 10), then `Math.floor` (lines 63-65). -/
def getDominantColor (pix : ℕ → ℕ → ℕ × ℕ × ℕ) (width height : ℕ) : ℤ × ℤ × ℤ :=
  let count := width * sampleHeight height
  let idx := sampledIdx count
  let rsum : ℕ := (idx.map (fun i => (bandPixel pix width height i).1)).sum
  let gsum : ℕ := (idx.map (fun i => (bandPixel pix width height i).2.1)).sum
  let bsum : ℕ := (idx.map (fun i => (bandPixel pix width height i).2.2)).sum
  let actualCount : ℚ := (count : ℚ) / 10
  (⌊(rsum : ℚ) / actualCount⌋, ⌊(gsum : ℚ) / actualCount⌋, ⌊(bsum : ℚ) / actualCount⌋)

/-- Modelled from the spec: a Theme Sampler that divides each channel sum
by the number of pixels actually visited during sampling (the length of
the sampled index list), as the specification describes.  Used only to
compare against `getDominantColor`. -/
def specDominantColor (pix : ℕ → ℕ → ℕ × ℕ × ℕ) (width height : ℕ) : ℤ × ℤ × ℤ :=
  let count := width * sampleHeight height
  let idx := sampledIdx count
  let rsum : ℕ := (idx.map (fun i => (bandPixel pix width height i).1)).sum
  let gsum : ℕ := (idx.map (fun i => (bandPixel pix width height i).2.1)).sum
  let bsum : ℕ := (idx.map (fun i => (bandPixel pix width height i).2.2)).sum
  let visited : ℚ := (idx.length : ℚ)
  (⌊(rsum : ℚ) / visited⌋, ⌊(gsum : ℚ) / visited⌋, ⌊(bsum : ℚ) / visited⌋)

/-- An all-white canvas, every pixel at full 8-bit intensity. -/
def whitePix : ℕ → ℕ → ℕ × ℕ × ℕ := fun _ _ => (255, 255, 255)

/-- Geometry of one drawn rectangle. -/
structure FitRect where
  drawWidth : ℚ
  drawHeight : ℚ
  offsetX : ℚ
  offsetY : ℚ
deriving DecidableEq

/-- The cover-fit geometry of `compositeFinalImage` (lines 94-111):
compare `imgAspect = srcW / srcH` against `targetAspect = W / H` and scale
the source to the matching canvas edge, centering along the other axis. -/
def coverFit (srcW srcH targetWidth targetHeight : ℚ) : FitRect :=
  if targetWidth / targetHeight < srcW / srcH then
    { drawHeight := targetHeight
      drawWidth := srcW * (targetHeight / srcH)
      offsetX := (targetWidth - srcW * (targetHeight / srcH)) / 2
      offsetY := 0 }
  else
    { drawWidth := targetWidth
      drawHeight := srcH * (targetWidth / srcW)
      offsetX := 0
      offsetY := (targetHeight - srcH * (targetWidth / srcW)) / 2 }

/-- Title font size, `Math.floor(targetWidth * 0.12)` (line 146). -/
def fontSizeName (targetWidth : ℚ) : ℤ := ⌊targetWidth * 0.12⌋

/-- Title line height, `fontSizeName * 1.1` (line 154). -/
def lineHeight (targetWidth : ℚ) : ℚ := (fontSizeName targetWidth : ℚ) * 1.1

/-- The vertical position variable `y` of the title block as it stands
when the drawing loop starts: assigned `targetHeight - targetHeight * 0.18`
at line 153, decremented by one line height when the raw game name is
longer than 15 characters (lines 157-159), then reassigned unconditionally
from the wrapped line count at line 180.  The successive `let` bindings
mirror the successive reassignments of the single mutable variable. -/
def titleBlockY (targetWidth targetHeight : ℚ) (nameLen numLines : ℕ) : ℚ :=
  let y := targetHeight - targetHeight * 0.18
  let y := if 15 < nameLen then y - lineHeight targetWidth else y
  let y := targetHeight - targetHeight * 0.15 - ((numLines : ℚ) - 1) * lineHeight targetWidth
  y

/-- Vertical position at which wrapped title line `i` is drawn,
`y + i * lineHeight` (line 183). -/
def titleLineY (targetWidth targetHeight : ℚ) (nameLen numLines i : ℕ) : ℚ :=
  titleBlockY targetWidth targetHeight nameLen numLines + (i : ℚ) * lineHeight targetWidth

/-- An RGBA color with rational components. -/
structure RGBA where
  r : ℚ
  g : ℚ
  b : ℚ
  a : ℚ
deriving DecidableEq

/-- First overlay gradient stop, offset 0: theme color at alpha 0
(line 131). -/
def gradStop0 (r g b : ℕ) : RGBA := ⟨r, g, b, 0⟩

/-- Middle overlay gradient stop, offset 0.6 (line 132): the channel
values are written as `r*0.5` directly into the color string, unrounded;
alpha 0.8. -/
def gradStopMid (r g b : ℕ) : RGBA :=
  ⟨(r : ℚ) * 0.5, (g : ℚ) * 0.5, (b : ℚ) * 0.5, 0.8⟩

/-- Final overlay gradient stop, offset 1 (line 133): channels `r*0.2`,
unrounded; alpha 1. -/
def gradStopEnd (r g b : ℕ) : RGBA :=
  ⟨(r : ℚ) * 0.2, (g : ℚ) * 0.2, (b : ℚ) * 0.2, 1⟩

/-- Componentwise linear interpolation between two colors. -/
def lerpRGBA (u v : RGBA) (t : ℚ) : RGBA :=
  ⟨u.r + (v.r - u.r) * t, u.g + (v.g - u.g) * t,
   u.b + (v.b - u.b) * t, u.a + (v.a - u.a) * t⟩

/-- Modelled from the spec: evaluation of a canvas linear gradient at
normalized position `t` along its coordinate span.  Positions are clamped
to the stop range, so everything before the first stop takes the first
stop's color (the spec: the region above the gradient's first stop renders
as the gradient's initial transparent color extended), and between
consecutive stops the color interpolates linearly.  Specialized to the
three stops added at lines 131-133. -/
def overlayGradientAt (r g b : ℕ) (t : ℚ) : RGBA :=
  let s := max 0 (min 1 t)
  if s ≤ 0.6 then lerpRGBA (gradStop0 r g b) (gradStopMid r g b) (s / 0.6)
  else lerpRGBA (gradStopMid r g b) (gradStopEnd r g b) ((s - 0.6) / 0.4)

/-- Normalized gradient coordinate of canvas row `y` for the overlay
gradient created by `createLinearGradient(0, targetHeight * 0.5, 0,
targetHeight)` (line 125). -/
def overlayT (targetHeight y : ℚ) : ℚ :=
  (y - targetHeight * 0.5) / (targetHeight - targetHeight * 0.5)

/-- Color of the overlay gradient at canvas row `y`. -/
def overlayColorAt (r g b : ℕ) (targetHeight y : ℚ) : RGBA :=
  overlayGradientAt r g b (overlayT targetHeight y)

/-- The rectangle filled with the overlay gradient, as
`(x, y, width, height)`: `fillRect(0, targetHeight * 0.4, targetWidth,
targetHeight * 0.6)` (line 136). -/
def overlayRect (targetWidth targetHeight : ℚ) : ℚ × ℚ × ℚ × ℚ :=
  (0, targetHeight * 0.4, targetWidth, targetHeight * 0.6)

/-- Drawing operations issued against the canvas. -/
inductive DrawOp where
  | fillRect (x y w h : ℚ)
  | drawImage (x y w h : ℚ)
  | gradientRect (x y w h : ℚ)
  | fillText (x y : ℚ)
deriving DecidableEq

/-- A 2-D canvas: fixed surface dimensions plus the list of drawing
operations painted onto it. -/
structure Canvas where
  width : ℕ
  height : ℕ
  ops : List DrawOp
deriving DecidableEq

/-- Canvas creation (lines 85-87): the dimensions are set once, to the
requested target size. -/
def createCanvas (w h : ℕ) : Canvas := ⟨w, h, []⟩

/-- A drawing call: records the operation and leaves the surface size
alone (2-D canvas drawing primitives never resize the canvas). -/
def pushOp (c : Canvas) (op : DrawOp) : Canvas := { c with ops := c.ops ++ [op] }

/-- Stage 1, the Frame Compositor (lines 113-118): the black background
fill over the whole canvas and the cover-fit `drawImage`. -/
def stageFrame (c : Canvas) (srcW srcH : ℚ) : Canvas :=
  let tw : ℚ := c.width
  let th : ℚ := c.height
  let f := coverFit srcW srcH tw th
  pushOp (pushOp c (.fillRect 0 0 tw th))
    (.drawImage f.offsetX f.offsetY f.drawWidth f.drawHeight)

/-- Stage 2, the overlay gradient fill (line 136). -/
def stageOverlay (c : Canvas) : Canvas :=
  let tw : ℚ := c.width
  let th : ℚ := c.height
  pushOp c (.gradientRect 0 (th * 0.4) tw (th * 0.6))

/-- Stage 3, the Typesetter (lines 145-193): one `fillText` per wrapped
title line at the computed line positions, then the provider line at
`targetHeight - targetHeight * 0.05`. -/
def stageText (c : Canvas) (m : JStr → ℚ) (gameName : JStr) : Canvas :=
  let tw : ℚ := c.width
  let th : ℚ := c.height
  let lines := wrapTitle m tw gameName
  let withTitle := (List.range lines.length).foldl
    (fun acc i => pushOp acc (.fillText (tw / 2) (titleLineY tw th gameName.length lines.length i))) c
  pushOp withTitle (.fillText (tw / 2) (th - th * 0.05))

/-- The `compositeFinalImage` pipeline (lines 85-195) at the level of
canvas state: create the canvas at the target size, then run the three
stages in order. -/
def compositeFinalImage (m : JStr → ℚ) (srcW srcH : ℚ) (gameName : JStr)
    (w h : ℕ) : Canvas :=
  stageText (stageOverlay (stageFrame (createCanvas w h) srcW srcH)) m gameName

/-- Modelled from the spec: `canvas.toDataURL` (line 195) encodes an image
whose dimensions are the canvas's current width and height. -/
def encodedDims (c : Canvas) : ℕ × ℕ := (c.width, c.height)

/-- A deterministic text measurer assigning each string its length, used
as a concrete stand-in for `ctx.measureText` in witnesses. -/
def mLen (s : JStr) : ℚ := s.length

/-- Concatenation of a group of words, each followed by one space — the
shape of every line string built by the wrap loop. -/
def flatL (g : List JStr) : JStr := (g.map (fun w => w ++ [' '])).flatten

/-- The wrap loop recast at the level of word groups: the accumulated
line is kept as the list of words it was built from, so that `flatL`
maps each state of `wrapGoW` to the corresponding state of `wrapGo`. -/
def wrapGoW (m : JStr → ℚ) (maxW : ℚ) : List JStr → ℕ → List JStr → List (List JStr)
  | [], _, acc => [acc]
  | w :: ws, n, acc =>
    if maxW < m (flatL (acc ++ [w])) ∧ 0 < n then
      acc :: wrapGoW m maxW ws (n + 1) [w]
    else
      wrapGoW m maxW ws (n + 1) (acc ++ [w])

/-- C1 counterexample: the claimed compound shift — a pre-shift of one
line height for raw titles longer than 15 characters, on top of the
line-count adjustment — does not survive to the drawing loop, because the
assignment at line 180 overwrites `y`.  At target size 100 by 100, a
16-character title wrapping to one line is drawn at the same vertical
position as a 14-character one, not one line height higher. -/
theorem C1_counterexample_preshift_overwritten :
    titleBlockY 100 100 16 1 = titleBlockY 100 100 14 1 ∧
    titleBlockY 100 100 16 1 ≠ titleBlockY 100 100 14 1 - lineHeight 100 := by
  constructor
  · rfl
  · simp only [titleBlockY, lineHeight, fontSizeName]
    norm_num

/-- C1 amended: the pre-shift computed for titles longer than 15
characters (lines 157-159) is dead — the vertical position of the title
block in effect when drawing starts depends only on the wrapped line
count, never on the raw title length. -/
theorem C1_amended_title_y_ignores_name_length (tw th : ℚ) (len1 len2 numLines : ℕ) :
    titleBlockY tw th len1 numLines = titleBlockY tw th len2 numLines := rfl

/-- C7: with at least one wrapped line, the lowest line is drawn at
`targetHeight - targetHeight * 0.15` regardless of the line count, and
line `i` is drawn exactly `numLines - 1 - i` line heights above it. -/
theorem C7_bottom_anchored_lines (tw th : ℚ) (nameLen n : ℕ) (hn : 1 ≤ n) :
    titleLineY tw th nameLen n (n - 1) = th - th * 0.15 ∧
    (∀ i, i < n →
      titleLineY tw th nameLen n i =
        (th - th * 0.15) - ((n - 1 - i : ℕ) : ℚ) * lineHeight tw) := by
  have key : ∀ i, i < n →
      titleLineY tw th nameLen n i =
        (th - th * 0.15) - ((n - 1 - i : ℕ) : ℚ) * lineHeight tw := by
    intro i hi
    have h3 : 1 + i ≤ n := by omega
    rw [Nat.sub_sub, Nat.cast_sub h3]
    push_cast
    simp only [titleLineY, titleBlockY]
    ring
  refine ⟨?_, key⟩
  have h := key (n - 1) (by omega)
  simpa using h

/-- Witness for C7 at target size 100 by 200 with two wrapped lines. -/
theorem C7_bottom_anchored_lines_witness :
    titleLineY 100 200 5 2 (2 - 1) = 200 - 200 * 0.15 ∧
    titleLineY 100 200 5 2 0 =
      (200 - 200 * 0.15) - ((2 - 1 - 0 : ℕ) : ℚ) * lineHeight 100 := by
  have h := C7_bottom_anchored_lines 100 200 5 2 (by decide)
  exact ⟨h.1, h.2 0 (by decide)⟩

/-- C3: the cover-fit geometry — in the wider-source case the drawn
height equals the canvas height with horizontal centering, otherwise the
drawn width equals the canvas width with vertical centering; in both
cases the drawn rectangle is at least canvas-sized, covers the canvas,
and overhangs equally on both sides of each axis. -/
theorem C3_cover_fit (srcW srcH tw th : ℚ)
    (hsW : 0 < srcW) (hsH : 0 < srcH) (hW : 0 < tw) (hH : 0 < th) :
    (tw / th < srcW / srcH →
      coverFit srcW srcH tw th =
        ⟨srcW * (th / srcH), th, (tw - srcW * (th / srcH)) / 2, 0⟩) ∧
    (¬ tw / th < srcW / srcH →
      coverFit srcW srcH tw th =
        ⟨tw, srcH * (tw / srcW), 0, (th - srcH * (tw / srcW)) / 2⟩) ∧
    tw ≤ (coverFit srcW srcH tw th).drawWidth ∧
    th ≤ (coverFit srcW srcH tw th).drawHeight ∧
    (coverFit srcW srcH tw th).offsetX ≤ 0 ∧
    tw ≤ (coverFit srcW srcH tw th).offsetX + (coverFit srcW srcH tw th).drawWidth ∧
    (coverFit srcW srcH tw th).offsetY ≤ 0 ∧
    th ≤ (coverFit srcW srcH tw th).offsetY + (coverFit srcW srcH tw th).drawHeight ∧
    0 - (coverFit srcW srcH tw th).offsetX =
      (coverFit srcW srcH tw th).offsetX + (coverFit srcW srcH tw th).drawWidth - tw ∧
    0 - (coverFit srcW srcH tw th).offsetY =
      (coverFit srcW srcH tw th).offsetY + (coverFit srcW srcH tw th).drawHeight - th := by
  by_cases hc : tw / th < srcW / srcH
  · have hlt : tw * srcH < srcW * th := (div_lt_div_iff₀ hH hsH).mp hc
    have hkey : tw ≤ srcW * (th / srcH) := by
      rw [mul_div_assoc', le_div_iff₀ hsH]
      linarith
    have hfit : coverFit srcW srcH tw th =
        ⟨srcW * (th / srcH), th, (tw - srcW * (th / srcH)) / 2, 0⟩ := by
      simp [coverFit, hc]
    rw [hfit]
    dsimp only
    exact ⟨fun _ => rfl, fun h => absurd hc h, hkey, le_refl th, by linarith, by linarith,
      le_refl 0, by linarith, by ring, by ring⟩
  · have hle : srcW / srcH ≤ tw / th := le_of_not_lt hc
    have hlt : srcW * th ≤ tw * srcH := (div_le_div_iff₀ hsH hH).mp hle
    have hkey : th ≤ srcH * (tw / srcW) := by
      rw [mul_div_assoc', le_div_iff₀ hsW]
      linarith
    have hfit : coverFit srcW srcH tw th =
        ⟨tw, srcH * (tw / srcW), 0, (th - srcH * (tw / srcW)) / 2⟩ := by
      simp [coverFit, hc]
    rw [hfit]
    dsimp only
    exact ⟨fun h => absurd h hc, fun _ => rfl, le_refl tw, hkey, le_refl 0, by linarith,
      by linarith, by linarith, by ring, by ring⟩

/-- Witness for C3 on a 2:1 source drawn into a square canvas. -/
theorem C3_cover_fit_witness :
    1 ≤ (coverFit 4 2 1 1).drawWidth ∧ (coverFit 4 2 1 1).offsetX ≤ 0 ∧
    1 ≤ (coverFit 4 2 1 1).offsetX + (coverFit 4 2 1 1).drawWidth := by
  have h := C3_cover_fit 4 2 1 1 (by norm_num) (by norm_num) (by norm_num) (by norm_num)
  exact ⟨h.2.2.1, h.2.2.2.2.1, h.2.2.2.2.2.1⟩

/-- C6 counterexample: the middle-stop channel value the code passes for
an 8-bit channel of 255 is the unrounded 127.5, not its truncation toward
zero — the claim that the used value is scaled-then-truncated fails. -/
theorem C6_counterexample_unrounded_channel :
    (gradStopMid 255 255 255).r ≠ ((⌊(gradStopMid 255 255 255).r⌋ : ℤ) : ℚ) := by
  simp only [gradStopMid]
  norm_num

/-- C6 amended: the gradient stop channels are the exact scaled values
`c * 0.5` and `c * 0.2`, passed unrounded — the middle-stop channel is an
integer exactly when the channel is even, and the final-stop channel is
an integer exactly when the channel is divisible by 5. -/
theorem C6_amended_exact_scaling (c : ℕ) :
    ((gradStopMid c c c).r = ((⌊(gradStopMid c c c).r⌋ : ℤ) : ℚ) ↔ 2 ∣ c) ∧
    ((gradStopEnd c c c).r = ((⌊(gradStopEnd c c c).r⌋ : ℤ) : ℚ) ↔ 5 ∣ c) := by
  have hmid : (gradStopMid c c c).r = (c : ℚ) / 2 := by
    simp only [gradStopMid]
    rw [show (0.5 : ℚ) = 1 / 2 by norm_num]
    ring
  have hend : (gradStopEnd c c c).r = (c : ℚ) / 5 := by
    simp only [gradStopEnd]
    rw [show (0.2 : ℚ) = 1 / 5 by norm_num]
    ring
  have hgen : ∀ d : ℕ, 0 < d →
      ((c : ℚ) / d = ((⌊((c : ℚ) / d)⌋ : ℤ) : ℚ) ↔ d ∣ c) := by
    intro d hd
    have hdq : (d : ℚ) ≠ 0 := by positivity
    have hdz : (d : ℤ) ≠ 0 := by positivity
    have hfl : ⌊((c : ℚ) / d)⌋ = (c : ℤ) / (d : ℤ) := by
      have h := Rat.floor_intCast_div_natCast (c : ℤ) d
      simpa using h
    rw [hfl]
    constructor
    · intro h
      rw [div_eq_iff hdq] at h
      have hz : (c : ℤ) = ((c : ℤ) / (d : ℤ)) * (d : ℤ) := by exact_mod_cast h
      have hdvd : (d : ℤ) ∣ (c : ℤ) := ⟨(c : ℤ) / (d : ℤ), by rw [mul_comm]; exact hz⟩
      exact_mod_cast hdvd
    · rintro ⟨k, rfl⟩
      have h2 : ((d * k : ℕ) : ℤ) / (d : ℤ) = (k : ℤ) := by
        push_cast
        exact Int.mul_ediv_cancel_left _ hdz
      rw [h2]
      push_cast
      field_simp
  rw [hmid, hend]
  exact ⟨hgen 2 (by norm_num), hgen 5 (by norm_num)⟩

/-- C5: the overlay gradient spans `targetHeight * 0.5 .. targetHeight`
with its three stops evaluating to the transparent theme color, the
half-brightness color at 80% alpha, and the one-fifth-brightness color at
full alpha; it is painted into the rectangle starting at
`targetHeight * 0.4`, and the strip of the rectangle above the gradient's
first stop — one tenth of the canvas height — renders fully transparent.
The start-coordinate/fill-rectangle mismatch is preserved. -/
theorem C5_overlay_gradient (r g b : ℕ) (tw th : ℚ) (hH : 0 < th) :
    (∀ y, th * 0.4 ≤ y → y < th * 0.5 → (overlayColorAt r g b th y).a = 0) ∧
    overlayColorAt r g b th (th * 0.5) = gradStop0 r g b ∧
    overlayColorAt r g b th (th * 0.5 + 0.6 * (th - th * 0.5)) = gradStopMid r g b ∧
    overlayColorAt r g b th th = gradStopEnd r g b ∧
    (overlayRect tw th).2.1 = th * 0.4 ∧
    (overlayRect tw th).2.1 + (overlayRect tw th).2.2.2 = th ∧
    (overlayRect tw th).2.1 < th * 0.5 ∧
    th * 0.5 - (overlayRect tw th).2.1 = th * 0.1 := by
  have hD : (0 : ℚ) < th - th * 0.5 := by linarith
  refine ⟨?_, ?_, ?_, ?_, rfl, by simp only [overlayRect]; ring, ?_, ?_⟩
  · intro y h1 h2
    have ht : overlayT th y < 0 := div_neg_of_neg_of_pos (by linarith) hD
    have hmin : min 1 (overlayT th y) = overlayT th y := min_eq_right (by linarith)
    have hmax : max 0 (overlayT th y) = 0 := max_eq_left ht.le
    simp only [overlayColorAt, overlayGradientAt, hmin, hmax]
    norm_num [lerpRGBA, gradStop0, gradStopMid]
  · have h0 : overlayT th (th * 0.5) = 0 := by
      simp [overlayT]
    simp only [overlayColorAt, overlayGradientAt, h0]
    norm_num [lerpRGBA, gradStop0, gradStopMid]
  · have hmid : overlayT th (th * 0.5 + 0.6 * (th - th * 0.5)) = 0.6 := by
      simp only [overlayT]
      rw [div_eq_iff hD.ne']
      ring
    simp only [overlayColorAt, overlayGradientAt, hmid]
    norm_num [lerpRGBA, gradStop0, gradStopMid]
  · have h1 : overlayT th th = 1 := div_self hD.ne'
    simp only [overlayColorAt, overlayGradientAt, h1]
    norm_num [lerpRGBA, gradStopMid, gradStopEnd]
  · simp only [overlayRect]
    linarith
  · simp only [overlayRect]
    ring

/-- Witness for C5 at a concrete canvas and theme color. -/
theorem C5_overlay_gradient_witness :
    (overlayColorAt 10 20 30 10 4.5).a = 0 ∧
    overlayColorAt 10 20 30 10 (10 * 0.5 + 0.6 * (10 - 10 * 0.5)) = gradStopMid 10 20 30 ∧
    overlayColorAt 10 20 30 10 10 = gradStopEnd 10 20 30 := by
  have h := C5_overlay_gradient 10 20 30 7 10 (by norm_num)
  exact ⟨h.1 4.5 (by norm_num) (by norm_num), h.2.2.1, h.2.2.2.1⟩

/-- Folding any sequence of drawing calls over a canvas never changes its
dimensions. -/
theorem foldl_pushOp_dims (f : ℕ → DrawOp) (l : List ℕ) (c : Canvas) :
    (l.foldl (fun acc i => pushOp acc (f i)) c).width = c.width ∧
    (l.foldl (fun acc i => pushOp acc (f i)) c).height = c.height := by
  induction l generalizing c with
  | nil => exact ⟨rfl, rfl⟩
  | cons x xs ih => exact ih (pushOp c (f x))

/-- C8: the canvas is created at the requested target size, none of the
three pipeline stages changes its dimensions, and the encoded output has
exactly the target width and height. -/
theorem C8_pipeline_dimensions (m : JStr → ℚ) (srcW srcH : ℚ) (gameName : JStr)
    (w h : ℕ) (hw : 0 < w) (hh : 0 < h) :
    (createCanvas w h).width = w ∧ (createCanvas w h).height = h ∧
    (∀ c : Canvas, (stageFrame c srcW srcH).width = c.width ∧
      (stageFrame c srcW srcH).height = c.height) ∧
    (∀ c : Canvas, (stageOverlay c).width = c.width ∧
      (stageOverlay c).height = c.height) ∧
    (∀ c : Canvas, (stageText c m gameName).width = c.width ∧
      (stageText c m gameName).height = c.height) ∧
    encodedDims (compositeFinalImage m srcW srcH gameName w h) = (w, h) := by
  have htext : ∀ c : Canvas, (stageText c m gameName).width = c.width ∧
      (stageText c m gameName).height = c.height := by
    intro c
    have hfold := foldl_pushOp_dims
      (fun i => DrawOp.fillText ((c.width : ℚ) / 2)
        (titleLineY (c.width : ℚ) (c.height : ℚ) gameName.length
          (wrapTitle m (c.width : ℚ) gameName).length i))
      (List.range (wrapTitle m (c.width : ℚ) gameName).length) c
    simp only [stageText]
    exact ⟨hfold.1, hfold.2⟩
  refine ⟨rfl, rfl, fun c => ⟨rfl, rfl⟩, fun c => ⟨rfl, rfl⟩, htext, ?_⟩
  have h1 := htext (stageOverlay (stageFrame (createCanvas w h) srcW srcH))
  simp only [encodedDims, compositeFinalImage]
  rw [h1.1, h1.2]
  rfl

/-- Witness for C8 at target size 2 by 3. -/
theorem C8_pipeline_dimensions_witness :
    encodedDims (compositeFinalImage mLen 1 1 [] 2 3) = (2, 3) :=
  (C8_pipeline_dimensions mLen 1 1 [] 2 3 (by norm_num) (by norm_num)).2.2.2.2.2

/-- The sampling loop over a band of `10 * k` pixels visits exactly `k`
of them. -/
theorem sampledIdx_length_mul_ten (k : ℕ) : (sampledIdx (10 * k)).length = k := by
  induction k with
  | zero => rfl
  | succ n ih =>
    have h10 : 10 * (n + 1) = 10 * n + 10 := by ring
    simp only [sampledIdx] at ih ⊢
    rw [h10, List.range_add, List.filter_append, List.length_append, ih,
      List.filter_map, List.length_map]
    have hcongr : List.filter ((fun i => decide (i % 10 = 0)) ∘ (fun x => 10 * n + x))
        (List.range 10) = List.filter (fun x => decide (x % 10 = 0)) (List.range 10) := by
      refine List.filter_congr ?_
      intro x _
      simp [Function.comp, Nat.mul_add_mod]
    rw [hcongr]
    have hone : (List.filter (fun x => decide (x % 10 = 0)) (List.range 10)).length = 1 := by
      decide
    rw [hone]

/-- The red channel `getDominantColor` computes on an all-white 1-by-5
canvas: the band holds one pixel, the sum over the single visited pixel is
255, and dividing by the fractional `count / 10 = 0.1` yields 2550. -/
theorem getDominantColor_white_1_5 :
    getDominantColor whitePix 1 5 = (2550, 2550, 2550) := by
  have h1 : (1 : ℕ) * sampleHeight 5 = 1 := by norm_num [sampleHeight]
  have hidx : sampledIdx 1 = [0] := rfl
  simp only [getDominantColor, h1, hidx]
  norm_num [bandPixel, whitePix]

/-- The same sampler, dividing by the actual visited-pixel count, yields
the true average 255 on the all-white 1-by-5 canvas. -/
theorem specDominantColor_white_1_5 :
    specDominantColor whitePix 1 5 = (255, 255, 255) := by
  have h1 : (1 : ℕ) * sampleHeight 5 = 1 := by norm_num [sampleHeight]
  have hidx : sampledIdx 1 = [0] := rfl
  simp only [specDominantColor, h1, hidx]
  norm_num [bandPixel, whitePix]

/-- C2 counterexample: on an all-white 1-by-5 canvas the band pixel count
is 1, the sampler divides the channel sum 255 by the fractional
`count / 10 = 0.1` rather than by the one pixel actually visited, and the
claimed quotient 255 differs from the computed 2550. -/
theorem C2_counterexample_fractional_divisor :
    (getDominantColor whitePix 1 5).1 = 2550 ∧
    (specDominantColor whitePix 1 5).1 = 255 ∧
    getDominantColor whitePix 1 5 ≠ specDominantColor whitePix 1 5 := by
  refine ⟨by rw [getDominantColor_white_1_5], by rw [specDominantColor_white_1_5], ?_⟩
  rw [getDominantColor_white_1_5, specDominantColor_white_1_5]
  decide

/-- C2 amended: when the band pixel count is a multiple of 10 the divisor
`count / 10` equals the number of visited pixels, and the sampler agrees
with the visited-count mean on every channel. -/
theorem C2_amended_divisor_when_divisible (pix : ℕ → ℕ → ℕ × ℕ × ℕ) (w h k : ℕ)
    (hk : w * sampleHeight h = 10 * k) :
    getDominantColor pix w h = specDominantColor pix w h := by
  have hlen : (((sampledIdx (w * sampleHeight h)).length : ℕ) : ℚ) =
      ((w * sampleHeight h : ℕ) : ℚ) / 10 := by
    rw [hk, sampledIdx_length_mul_ten]
    push_cast
    field_simp
  simp only [getDominantColor, specDominantColor]
  rw [hlen]

/-- Witness for the amended C2 on a 10-by-5 canvas, whose band holds
exactly 10 pixels. -/
theorem C2_amended_divisor_witness :
    getDominantColor whitePix 10 5 = specDominantColor whitePix 10 5 :=
  C2_amended_divisor_when_divisible whitePix 10 5 1 (by norm_num [sampleHeight])

/-- C9: on the all-white 1-by-5 canvas — whose band pixel count 1 is not
divisible by 10 — the sampler returns a red channel of 2550, strictly
greater than the 8-bit maximum 255 of every input pixel; no clamping is
applied. -/
theorem C9_sampler_overflow :
    ¬ (10 ∣ 1 * sampleHeight 5) ∧
    255 < (getDominantColor whitePix 1 5).1 ∧
    (∀ x y, (whitePix x y).1 ≤ 255) := by
  refine ⟨?_, ?_, fun x y => le_refl 255⟩
  · have h1 : (1 : ℕ) * sampleHeight 5 = 1 := by norm_num [sampleHeight]
    rw [h1]
    decide
  · rw [getDominantColor_white_1_5]
    decide

/-- Appending one word to the accumulated group appends the word and one
space to the accumulated line. -/
theorem flatL_append_single (acc : List JStr) (w : JStr) :
    flatL (acc ++ [w]) = flatL acc ++ w ++ [' '] := by
  simp [flatL, List.append_assoc]

/-- The string-level wrap loop is the image of the word-group wrap loop
under `flatL`. -/
theorem wrapGo_eq_map_flatL (m : JStr → ℚ) (maxW : ℚ) (ws : List JStr) (n : ℕ)
    (acc : List JStr) :
    wrapGo m maxW ws n (flatL acc) = (wrapGoW m maxW ws n acc).map flatL := by
  induction ws generalizing n acc with
  | nil => simp [wrapGo, wrapGoW]
  | cons w tail ih =>
    simp only [wrapGo, wrapGoW]
    rw [show flatL acc ++ w ++ [' '] = flatL (acc ++ [w]) from (flatL_append_single acc w).symm]
    by_cases hc : maxW < m (flatL (acc ++ [w])) ∧ 0 < n
    · rw [if_pos hc, if_pos hc, List.map_cons]
      congr 1
      rw [show w ++ [' '] = flatL [w] from by simp [flatL]]
      exact ih (n + 1) [w]
    · rw [if_neg hc, if_neg hc]
      exact ih (n + 1) (acc ++ [w])

/-- The word groups produced by the wrap concatenate back to the full
word list: no word is dropped, duplicated, or reordered. -/
theorem wrapGoW_flatten (m : JStr → ℚ) (maxW : ℚ) (ws : List JStr) (n : ℕ)
    (acc : List JStr) :
    (wrapGoW m maxW ws n acc).flatten = acc ++ ws := by
  induction ws generalizing n acc with
  | nil => simp [wrapGoW]
  | cons w tail ih =>
    simp only [wrapGoW]
    split
    · simp [ih]
    · rw [ih]
      simp

/-- The word-group wrap always produces at least one group. -/
theorem wrapGoW_ne_nil (m : JStr → ℚ) (maxW : ℚ) (ws : List JStr) (n : ℕ)
    (acc : List JStr) : wrapGoW m maxW ws n acc ≠ [] := by
  induction ws generalizing n acc with
  | nil => simp [wrapGoW]
  | cons w tail ih =>
    simp only [wrapGoW]
    split
    · simp
    · exact ih _ _

/-- Splitting on spaces always yields at least one word. -/
theorem splitSp_ne_nil (s : JStr) : splitSp s ≠ [] := by
  cases s with
  | nil => simp [splitSp]
  | cons c cs =>
    simp only [splitSp]
    split <;> simp

/-- With a nonempty starting group, every produced word group is
nonempty. -/
theorem wrapGoW_mem_ne_nil (m : JStr → ℚ) (maxW : ℚ) (ws : List JStr) (n : ℕ)
    (acc : List JStr) (hacc : acc ≠ []) :
    ∀ g ∈ wrapGoW m maxW ws n acc, g ≠ [] := by
  induction ws generalizing n acc with
  | nil =>
    intro g hg
    simp only [wrapGoW, List.mem_singleton] at hg
    exact hg ▸ hacc
  | cons w tail ih =>
    intro g hg
    simp only [wrapGoW] at hg
    split at hg
    · rcases List.mem_cons.mp hg with h | h
      · exact h ▸ hacc
      · exact ih _ _ (by simp) g h
    · exact ih _ _ (by simp) g hg

/-- Every word of every produced group comes from the starting group or
the remaining word list. -/
theorem wrapGoW_mem_mem (m : JStr → ℚ) (maxW : ℚ) (ws : List JStr) (n : ℕ)
    (acc : List JStr) :
    ∀ g ∈ wrapGoW m maxW ws n acc, ∀ x ∈ g, x ∈ acc ++ ws := by
  induction ws generalizing n acc with
  | nil =>
    intro g hg x hx
    simp only [wrapGoW, List.mem_singleton] at hg
    subst hg
    simpa using hx
  | cons w tail ih =>
    intro g hg x hx
    simp only [wrapGoW] at hg
    split at hg
    · rcases List.mem_cons.mp hg with h | h
      · subst h
        exact List.mem_append_left _ hx
      · have hmem := ih _ _ g h x hx
        simp only [List.mem_append, List.mem_singleton, List.mem_cons] at hmem ⊢
        tauto
    · have hmem := ih _ _ g hg x hx
      simp only [List.mem_append, List.mem_singleton, List.mem_cons] at hmem ⊢
      tauto

/-- Invariant of the wrap: once past the first word, any produced group
whose line measures over the limit is a single word — an over-wide word
is emitted as its own line, unsplit. -/
theorem wrapGoW_wide_line_single (m : JStr → ℚ) (maxW : ℚ) (ws : List JStr) (n : ℕ)
    (acc : List JStr) (hn : 0 < n)
    (hacc : maxW < m (flatL acc) → ∃ u, acc = [u]) :
    ∀ g ∈ wrapGoW m maxW ws n acc, maxW < m (flatL g) → ∃ u, g = [u] := by
  induction ws generalizing n acc with
  | nil =>
    intro g hg
    simp only [wrapGoW, List.mem_singleton] at hg
    exact hg ▸ hacc
  | cons w tail ih =>
    intro g hg
    simp only [wrapGoW] at hg
    by_cases hc : maxW < m (flatL (acc ++ [w])) ∧ 0 < n
    · rw [if_pos hc] at hg
      rcases List.mem_cons.mp hg with h | h
      · exact h ▸ hacc
      · exact ih _ _ (Nat.succ_pos n) (fun _ => ⟨w, rfl⟩) g h
    · rw [if_neg hc] at hg
      have hA : ¬ maxW < m (flatL (acc ++ [w])) := fun hA => hc ⟨hA, hn⟩
      exact ih _ _ (Nat.succ_pos n) (fun hwide => absurd hwide hA) g hg

/-- If the wrap (past the first word) produces exactly one group, either
the final line passed the width check or no word was ever examined. -/
theorem wrapGoW_single_le (m : JStr → ℚ) (maxW : ℚ) (ws : List JStr) (n : ℕ)
    (acc : List JStr) (g : List JStr) (hn : 0 < n)
    (h1 : wrapGoW m maxW ws n acc = [g]) :
    m (flatL g) ≤ maxW ∨ (ws = [] ∧ g = acc) := by
  induction ws generalizing n acc with
  | nil =>
    simp only [wrapGoW] at h1
    right
    refine ⟨rfl, ?_⟩
    injection h1 with h _
    exact h.symm
  | cons w tail ih =>
    simp only [wrapGoW] at h1
    by_cases hc : maxW < m (flatL (acc ++ [w])) ∧ 0 < n
    · rw [if_pos hc] at h1
      injection h1 with _ hrest
      exact absurd hrest (wrapGoW_ne_nil m maxW tail (n + 1) [w])
    · rw [if_neg hc] at h1
      have hA : ¬ maxW < m (flatL (acc ++ [w])) := fun hA => hc ⟨hA, hn⟩
      rcases ih _ _ (Nat.succ_pos n) h1 with h | ⟨htail, hg⟩
      · exact Or.inl h
      · left
        rw [hg]
        exact le_of_not_lt hA

/-- Joining the words produced by the space split with single spaces
recovers the original string. -/
theorem interSp_splitSp (s : JStr) : interSp (splitSp s) = s := by
  induction s with
  | nil => rfl
  | cons c cs ih =>
    rcases hr : splitSp cs with _ | ⟨t, ts⟩
    · exact absurd hr (splitSp_ne_nil cs)
    · rw [hr] at ih
      simp only [splitSp, hr]
      by_cases hc : c = ' '
      · subst hc
        rw [if_pos rfl]
        have hshape : interSp ([] :: t :: ts) = ' ' :: interSp (t :: ts) := rfl
        rw [hshape, ih]
      · rw [if_neg hc]
        show interSp ((c :: (t :: ts).headI) :: (t :: ts).tail) = c :: cs
        cases ts with
        | nil =>
          have ht : t = cs := ih
          simp [interSp, List.headI, ht]
        | cons u us =>
          have h3 : interSp ((c :: t) :: u :: us) = (c :: t) ++ ' ' :: interSp (u :: us) := rfl
          have h4 : interSp (t :: u :: us) = t ++ ' ' :: interSp (u :: us) := rfl
          rw [h4] at ih
          simp only [List.headI, List.tail]
          rw [h3, ← ih]
          simp

/-- A nonempty group's line is its space-joined words followed by one
trailing space. -/
theorem flatL_eq_interSp (g : List JStr) (hg : g ≠ []) :
    flatL g = interSp g ++ [' '] := by
  induction g with
  | nil => contradiction
  | cons w ws ih =>
    cases ws with
    | nil => simp [flatL, interSp]
    | cons u us =>
      have h := ih (by simp)
      have h1 : flatL (w :: u :: us) = (w ++ [' ']) ++ flatL (u :: us) := by
        simp [flatL]
      have h2 : interSp (w :: u :: us) = w ++ ' ' :: interSp (u :: us) := rfl
      rw [h1, h2, h]
      simp [List.append_assoc]

/-- With the word list decomposed as `w0 :: rest`, the title wrap is the
image under `flatL` of the word-group wrap started after the first word,
since index 0 never commits. -/
theorem wrapTitle_eq_groups (m : JStr → ℚ) (tw : ℚ) (gameName : JStr)
    (w0 : JStr) (rest : List JStr) (hw : splitSp (upStr gameName) = w0 :: rest) :
    wrapTitle m tw gameName = (wrapGoW m (tw * 0.9) rest 1 [w0]).map flatL := by
  simp only [wrapTitle, hw, wrapGo]
  rw [if_neg (by simp)]
  rw [show ([] : JStr) ++ w0 ++ [' '] = flatL [w0] from by simp [flatL]]
  exact wrapGo_eq_map_flatL m (tw * 0.9) rest 1 [w0]

/-- C4 amended: the wrap always commits at least one line; every produced
line either measures within `targetWidth * 0.9` or is a single over-wide
word followed by its trailing space, emitted as-is and unsplit; and when
the title splits into at least two words, the measure is monotone under
appending, and the full upper-cased title measures over the limit, the
output has more than one line. -/
theorem C4_word_wrap_lines (m : JStr → ℚ) (tw : ℚ) (gameName : JStr) :
    wrapTitle m tw gameName ≠ [] ∧
    (∀ l ∈ wrapTitle m tw gameName,
      m l ≤ tw * 0.9 ∨ ∃ u ∈ splitSp (upStr gameName), l = u ++ [' ']) ∧
    ((∀ s t : JStr, m s ≤ m (s ++ t)) →
      2 ≤ (splitSp (upStr gameName)).length →
      tw * 0.9 < m (upStr gameName) →
      1 < (wrapTitle m tw gameName).length) := by
  obtain ⟨w0, rest, hw⟩ : ∃ w0 rest, splitSp (upStr gameName) = w0 :: rest := by
    rcases h : splitSp (upStr gameName) with _ | ⟨a, b⟩
    · exact absurd h (splitSp_ne_nil _)
    · exact ⟨a, b, rfl⟩
  have hTitle : wrapTitle m tw gameName = (wrapGoW m (tw * 0.9) rest 1 [w0]).map flatL :=
    wrapTitle_eq_groups m tw gameName w0 rest hw
  have h1 : wrapTitle m tw gameName ≠ [] := by
    rw [hTitle]
    intro hcontra
    rw [List.map_eq_nil_iff] at hcontra
    exact wrapGoW_ne_nil m (tw * 0.9) rest 1 [w0] hcontra
  refine ⟨h1, ?_, ?_⟩
  · intro l hl
    rw [hTitle] at hl
    obtain ⟨g, hg, rfl⟩ := List.mem_map.mp hl
    by_cases hwide : m (flatL g) ≤ tw * 0.9
    · exact Or.inl hwide
    · obtain ⟨u, rfl⟩ := wrapGoW_wide_line_single m (tw * 0.9) rest 1 [w0] one_pos
        (fun _ => ⟨w0, rfl⟩) g hg (lt_of_not_le hwide)
      refine Or.inr ⟨u, ?_, by simp [flatL]⟩
      have hmem := wrapGoW_mem_mem m (tw * 0.9) rest 1 [w0] [u] hg u (by simp)
      rw [hw]
      simpa using hmem
  · intro hmono hlen hwidth
    by_contra hnot
    push_neg at hnot
    rw [hTitle, List.length_map] at hnot
    have hpos : 0 < (wrapGoW m (tw * 0.9) rest 1 [w0]).length :=
      List.length_pos.mpr (wrapGoW_ne_nil m (tw * 0.9) rest 1 [w0])
    have hlen1 : (wrapGoW m (tw * 0.9) rest 1 [w0]).length = 1 := by omega
    obtain ⟨g, hg⟩ := List.length_eq_one.mp hlen1
    rcases wrapGoW_single_le m (tw * 0.9) rest 1 [w0] g one_pos hg with hle | ⟨hrest, _⟩
    · have hj := wrapGoW_flatten m (tw * 0.9) rest 1 [w0]
      rw [hg] at hj
      simp only [List.flatten_cons, List.flatten_nil, List.append_nil,
        List.singleton_append] at hj
      have hinter : interSp (w0 :: rest) = upStr gameName := by
        have hi := interSp_splitSp (upStr gameName)
        rw [hw] at hi
        exact hi
      have hflat : flatL g = upStr gameName ++ [' '] := by
        rw [hj, flatL_eq_interSp _ (by simp), hinter]
      rw [hflat] at hle
      have hm := hmono (upStr gameName) [' ']
      linarith
    · rw [hw, hrest] at hlen
      simp at hlen

/-- C4 counterexample: a single word of twelve characters measures over
the limit `10 * 0.9` under the length measure, yet the wrap emits exactly
one line — the claim that an over-limit title always yields more than one
line fails for single-word titles. -/
theorem C4_counterexample_single_wide_word :
    (10 : ℚ) * 0.9 < mLen (upStr (List.replicate 12 'A')) ∧
    (wrapTitle mLen 10 (List.replicate 12 'A')).length = 1 := by
  constructor
  · have hlen : mLen (upStr (List.replicate 12 'A')) = 12 := by
      simp [mLen, upStr]
    rw [hlen]
    norm_num
  · have hsplit : splitSp (upStr (List.replicate 12 'A')) =
        [List.replicate 12 'A'] := by decide
    simp only [wrapTitle, hsplit, wrapGo]
    rw [if_neg (by simp)]
    simp [wrapGo]

/-- Witness for the amended C4: the two-word title `AB C` at target width
3 measures 4 under the length measure, over the limit 2.7, and wraps into
two lines. -/
theorem C4_word_wrap_lines_witness :
    1 < (wrapTitle mLen 3 ['A', 'B', ' ', 'C']).length := by
  refine (C4_word_wrap_lines mLen 3 ['A', 'B', ' ', 'C']).2.2 ?_ (by decide) ?_
  · intro s t
    simp only [mLen, List.length_append]
    push_cast
    have ht : (0 : ℚ) ≤ (t.length : ℚ) := Nat.cast_nonneg _
    linarith
  · have hlen : mLen (upStr ['A', 'B', ' ', 'C']) = 4 := by
      simp [mLen, upStr]
    rw [hlen]
    norm_num

/-- Upper-casing leaves the space character unchanged. -/
theorem upChar_space : upChar ' ' = ' ' := by decide

/-- Upper-casing never turns a non-space character into a space. -/
theorem upChar_ne_space (c : Char) (hc : c ≠ ' ') : upChar c ≠ ' ' := by
  rw [upChar]
  by_cases h : 'a' ≤ c ∧ c ≤ 'z'
  · rw [if_pos h]
    have hb1 : 97 ≤ c.toNat := by simpa [Char.le_def] using h.1
    have hb2 : c.toNat ≤ 122 := by simpa [Char.le_def] using h.2
    set k := c.toNat with hk
    interval_cases k <;> decide
  · rw [if_neg h]
    exact hc

/-- Upper-casing preserves non-whitespace characters. -/
theorem jsIsWs_upChar (c : Char) (hc : jsIsWs c = false) : jsIsWs (upChar c) = false := by
  rw [upChar]
  by_cases h : 'a' ≤ c ∧ c ≤ 'z'
  · rw [if_pos h]
    have hb1 : 97 ≤ c.toNat := by simpa [Char.le_def] using h.1
    have hb2 : c.toNat ≤ 122 := by simpa [Char.le_def] using h.2
    set k := c.toNat with hk
    interval_cases k <;> decide
  · rw [if_neg h]
    exact hc

/-- The head of an upper-cased word list is the upper-cased head. -/
theorem headI_map_upStr (l : List JStr) : (l.map upStr).headI = upStr l.headI := by
  cases l <;> rfl

/-- The tail of an upper-cased word list is the upper-cased tail. -/
theorem tail_map_upStr (l : List JStr) : (l.map upStr).tail = l.tail.map upStr := by
  cases l <;> rfl

/-- Splitting on spaces commutes with upper-casing, since upper-casing
fixes spaces and never creates them. -/
theorem splitSp_upStr (s : JStr) : splitSp (upStr s) = (splitSp s).map upStr := by
  induction s with
  | nil => rfl
  | cons c cs ih =>
    have hup : upStr (c :: cs) = upChar c :: upStr cs := rfl
    rw [hup]
    by_cases hc : c = ' '
    · subst hc
      rw [upChar_space]
      have hL : splitSp (' ' :: upStr cs) = [] :: splitSp (upStr cs) := by
        simp [splitSp]
      have hR : splitSp (' ' :: cs) = [] :: splitSp cs := by
        simp [splitSp]
      rw [hL, hR, List.map_cons, ih]
      rfl
    · have hc2 : upChar c ≠ ' ' := upChar_ne_space c hc
      have hL : splitSp (upChar c :: upStr cs) =
          (upChar c :: (splitSp (upStr cs)).headI) :: (splitSp (upStr cs)).tail := by
        simp [splitSp, hc2]
      have hR : splitSp (c :: cs) = (c :: (splitSp cs).headI) :: (splitSp cs).tail := by
        simp [splitSp, hc]
      rw [hL, hR, ih, List.map_cons, headI_map_upStr, tail_map_upStr]
      rfl

/-- On a nonempty list, `getLast?` returns the default-valued last
element. -/
theorem getLast?_eq_getLastI (u : JStr) (hu : u ≠ []) : u.getLast? = some u.getLastI := by
  rw [List.getLastI_eq_getLast?]
  cases h : u.getLast? with
  | none => exact absurd (by simpa using h) hu
  | some d => rfl

/-- The last character of an upper-cased nonempty word is the upper-cased
last character. -/
theorem getLastI_upStr (v : JStr) (hv : v ≠ []) :
    (upStr v).getLastI = upChar v.getLastI := by
  have hvne : upStr v ≠ [] := by
    simp [upStr, hv]
  have h1 : (upStr v).getLast? = some (upChar v.getLastI) := by
    rw [show upStr v = v.map upChar from rfl, List.getLast?_map, getLast?_eq_getLastI v hv]
    rfl
  have h2 := getLast?_eq_getLastI (upStr v) hvne
  rw [h2] at h1
  simpa using h1

/-- Space-joining a nonempty list of nonempty words yields a nonempty
string. -/
theorem interSp_ne_nil (g : List JStr) (hg : g ≠ []) (hne : ∀ w ∈ g, w ≠ []) :
    interSp g ≠ [] := by
  rcases g with _ | ⟨w, gs⟩
  · contradiction
  · cases gs with
    | nil => exact hne w (by simp)
    | cons u us =>
      have hshape : interSp (w :: u :: us) = w ++ ' ' :: interSp (u :: us) := rfl
      rw [hshape]
      simp

/-- The last character of a space-joined group is the last character of
one of its words. -/
theorem interSp_getLast? (g : List JStr) (hg : g ≠ []) (hne : ∀ w ∈ g, w ≠ []) :
    ∃ w ∈ g, (interSp g).getLast? = w.getLast? := by
  induction g with
  | nil => contradiction
  | cons w gs ih =>
    cases gs with
    | nil => exact ⟨w, by simp, rfl⟩
    | cons g2 gs2 =>
      obtain ⟨u, hu, heq⟩ := ih (by simp) (fun x hx => hne x (List.mem_cons_of_mem w hx))
      refine ⟨u, List.mem_cons_of_mem w hu, ?_⟩
      have hshape : interSp (w :: g2 :: gs2) = w ++ ' ' :: interSp (g2 :: gs2) := rfl
      rw [hshape, List.getLast?_append_of_ne_nil w (by simp)]
      have hint : interSp (g2 :: gs2) ≠ [] :=
        interSp_ne_nil _ (by simp) (fun x hx => hne x (List.mem_cons_of_mem w hx))
      rcases List.exists_cons_of_ne_nil hint with ⟨d, ds, hds⟩
      rw [hds, List.getLast?_cons_cons, ← hds, heq]

/-- Trimming a wrapped line — the space-joined group plus one trailing
space — strips exactly that trailing space, provided every word in the
group is nonempty with non-whitespace first and last characters. -/
theorem jsTrim_flatL (g : List JStr) (hg : g ≠ [])
    (hne : ∀ w ∈ g, w ≠ [])
    (hhd : ∀ w ∈ g, jsIsWs w.headI = false)
    (hlast : ∀ w ∈ g, jsIsWs w.getLastI = false) :
    jsTrim (flatL g) = interSp g := by
  rw [flatL_eq_interSp g hg, jsTrim]
  have hL : (interSp g ++ [' ']).dropWhile jsIsWs = interSp g ++ [' '] := by
    rcases g with _ | ⟨w, gs⟩
    · contradiction
    · have hwne : w ≠ [] := hne w (by simp)
      rcases List.exists_cons_of_ne_nil hwne with ⟨c, w', rfl⟩
      have hcw : jsIsWs c = false := hhd (c :: w') (by simp)
      obtain ⟨restc, hrest⟩ : ∃ restc, interSp ((c :: w') :: gs) ++ [' '] = c :: restc := by
        cases gs with
        | nil => exact ⟨w' ++ [' '], rfl⟩
        | cons g2 gs2 => exact ⟨(w' ++ ' ' :: interSp (g2 :: gs2)) ++ [' '], rfl⟩
      rw [hrest]
      simp [List.dropWhile_cons, hcw]
  rw [hL, List.reverse_append, show ([' '] : JStr).reverse = [' '] from rfl,
    List.singleton_append]
  have h1 : (' ' :: (interSp g).reverse).dropWhile jsIsWs =
      (interSp g).reverse.dropWhile jsIsWs := by
    simp [List.dropWhile_cons, jsIsWs]
  rw [h1]
  obtain ⟨u, hu, heq⟩ := interSp_getLast? g hg hne
  have hu' : u ≠ [] := hne u hu
  have hhead : (interSp g).reverse.head? = some u.getLastI := by
    rw [List.head?_reverse, heq, getLast?_eq_getLastI u hu']
  rcases hrev : (interSp g).reverse with _ | ⟨d, ds⟩
  · rw [hrev] at hhead
    simp at hhead
  · rw [hrev] at hhead
    have hd : d = u.getLastI := by simpa using hhead
    have hdw : jsIsWs d = false := by
      rw [hd]
      exact hlast u hu
    have h2 : (d :: ds).dropWhile jsIsWs = d :: ds := by
      simp [List.dropWhile_cons, hdw]
    rw [h2, ← hrev, List.reverse_reverse]

/-- Space-joining distributes over append of nonempty groups, inserting
one separating space. -/
theorem interSp_append (a b : List JStr) (ha : a ≠ []) (hb : b ≠ []) :
    interSp (a ++ b) = interSp a ++ ' ' :: interSp b := by
  induction a with
  | nil => contradiction
  | cons w ws ih =>
    cases ws with
    | nil =>
      rcases List.exists_cons_of_ne_nil hb with ⟨x, xs, rfl⟩
      rfl
    | cons u us =>
      have h1 : interSp ((w :: u :: us) ++ b) = w ++ ' ' :: interSp ((u :: us) ++ b) := rfl
      have h2 : interSp (w :: u :: us) = w ++ ' ' :: interSp (u :: us) := rfl
      rw [h1, ih (by simp), h2]
      simp

/-- Space-joining the space-joined groups equals space-joining all their
words, when every group is nonempty. -/
theorem interSp_map_flatten (gs : List (List JStr)) (hgs : gs ≠ [])
    (hg : ∀ g ∈ gs, g ≠ []) :
    interSp (gs.map interSp) = interSp gs.flatten := by
  induction gs with
  | nil => contradiction
  | cons g gs2 ih =>
    cases gs2 with
    | nil => simp [interSp]
    | cons g2 gs3 =>
      have hA : interSp ((g :: g2 :: gs3).map interSp) =
          interSp g ++ ' ' :: interSp ((g2 :: gs3).map interSp) := rfl
      have hflat : (g2 :: gs3).flatten ≠ [] := by
        rcases List.exists_cons_of_ne_nil (hg g2 (by simp)) with ⟨x, xs, hx⟩
        simp [hx]
      rw [hA, ih (by simp) (fun x hx => hg x (List.mem_cons_of_mem g hx))]
      have hB : (g :: g2 :: gs3).flatten = g ++ (g2 :: gs3).flatten := rfl
      rw [hB, interSp_append g ((g2 :: gs3).flatten) (hg g (by simp)) hflat]

/-- C10 amended: for a title whose words are separated by single spaces,
with no leading or trailing spaces, and whose words neither start nor end
with a non-space whitespace character, joining the trimmed wrapped lines
with single spaces yields exactly the upper-cased title — the wrap emits
every word exactly once, in order, never splitting, dropping, or
duplicating a word. -/
theorem C10_wrap_preserves_words (m : JStr → ℚ) (tw : ℚ) (title : JStr)
    (hne : ∀ w ∈ splitSp title, w ≠ [])
    (hhd : ∀ w ∈ splitSp title, jsIsWs w.headI = false)
    (hlast : ∀ w ∈ splitSp title, jsIsWs w.getLastI = false) :
    interSp ((wrapTitle m tw title).map jsTrim) = upStr title := by
  have hsplit : splitSp (upStr title) = (splitSp title).map upStr := splitSp_upStr title
  have hne' : ∀ w ∈ splitSp (upStr title), w ≠ [] := by
    rw [hsplit]
    intro w hw
    obtain ⟨v, hv, rfl⟩ := List.mem_map.mp hw
    intro hnil
    exact hne v hv (by simpa [upStr] using hnil)
  have hhd' : ∀ w ∈ splitSp (upStr title), jsIsWs w.headI = false := by
    rw [hsplit]
    intro w hw
    obtain ⟨v, hv, rfl⟩ := List.mem_map.mp hw
    rcases List.exists_cons_of_ne_nil (hne v hv) with ⟨c, v', rfl⟩
    have h0 : jsIsWs (List.headI (c :: v')) = false := hhd _ hv
    have hI : List.headI (c :: v') = c := rfl
    rw [hI] at h0
    have hstep : (upStr (c :: v')).headI = upChar c := rfl
    rw [hstep]
    exact jsIsWs_upChar c h0
  have hlast' : ∀ w ∈ splitSp (upStr title), jsIsWs w.getLastI = false := by
    rw [hsplit]
    intro w hw
    obtain ⟨v, hv, rfl⟩ := List.mem_map.mp hw
    rw [getLastI_upStr v (hne v hv)]
    exact jsIsWs_upChar _ (hlast v hv)
  obtain ⟨w0, rest, hw⟩ : ∃ w0 rest, splitSp (upStr title) = w0 :: rest := by
    rcases h : splitSp (upStr title) with _ | ⟨a, b⟩
    · exact absurd h (splitSp_ne_nil _)
    · exact ⟨a, b, rfl⟩
  rw [wrapTitle_eq_groups m tw title w0 rest hw, List.map_map]
  have hgroups : ∀ g ∈ wrapGoW m (tw * 0.9) rest 1 [w0], (jsTrim ∘ flatL) g = interSp g := by
    intro g hg
    have hgne : g ≠ [] := wrapGoW_mem_ne_nil m (tw * 0.9) rest 1 [w0] (by simp) g hg
    have hmem : ∀ x ∈ g, x ∈ splitSp (upStr title) := by
      intro x hx
      have h := wrapGoW_mem_mem m (tw * 0.9) rest 1 [w0] g hg x hx
      rw [hw]
      simpa using h
    exact jsTrim_flatL g hgne (fun x hx => hne' x (hmem x hx))
      (fun x hx => hhd' x (hmem x hx)) (fun x hx => hlast' x (hmem x hx))
  rw [List.map_congr_left hgroups]
  have hgne : ∀ g ∈ wrapGoW m (tw * 0.9) rest 1 [w0], g ≠ [] :=
    wrapGoW_mem_ne_nil m (tw * 0.9) rest 1 [w0] (by simp)
  rw [interSp_map_flatten _ (wrapGoW_ne_nil m (tw * 0.9) rest 1 [w0]) hgne,
    wrapGoW_flatten m (tw * 0.9) rest 1 [w0], List.singleton_append, ← hw,
    interSp_splitSp]

/-- C10 counterexample: the single-word title consisting of a tab
followed by the letter A has its words separated by single spaces and no
leading or trailing spaces, yet trimming the wrapped line strips the tab,
so rejoining the trimmed lines does not reproduce the upper-cased title. -/
theorem C10_counterexample_tab_trimmed :
    interSp ((wrapTitle (fun _ => (0 : ℚ)) 100 ['\t', 'A']).map jsTrim) ≠
      upStr ['\t', 'A'] := by
  have hsplit : splitSp (upStr ['\t', 'A']) = [['\t', 'A']] := by decide
  rw [wrapTitle_eq_groups (fun _ => (0 : ℚ)) 100 ['\t', 'A'] ['\t', 'A'] [] hsplit]
  decide

/-- Witness for the amended C10: the two-word title `AB C` wraps (into
two lines at width 3 under the length measure) and rejoins to itself. -/
theorem C10_wrap_preserves_words_witness :
    interSp ((wrapTitle mLen 3 ['A', 'B', ' ', 'C']).map jsTrim) =
      upStr ['A', 'B', ' ', 'C'] :=
  C10_wrap_preserves_words mLen 3 ['A', 'B', ' ', 'C'] (by decide) (by decide) (by decide)
